import Mathlib

/-!
Verification of the novels-end text-processing pipeline.

The development embeds the JavaScript pipeline (encoding resolution,
chapter segmentation, content normalization, compressed persistence,
batched orchestration) as executable Lean definitions over `List Char`
and proves the spec's claims about it.

Strings are modelled as `List Char` (Unicode scalar values).  JavaScript
regular-expression replacements are embedded as recursive functions that
mirror the scanning behaviour of the corresponding regex on the source's
patterns; each embedding notes the regex it implements.
-/

namespace NovelsEnd

/-- The character class of JavaScript regex `\s` (also the set stripped by
`String.prototype.trim`): ASCII whitespace, NBSP, Ogham space, the
` `-` ` range, line/paragraph separators, narrow NBSP, medium
mathematical space, ideographic space and BOM. -/
def isWS (c : Char) : Bool :=
  c.val == 0x09 || c.val == 0x0A || c.val == 0x0B || c.val == 0x0C ||
  c.val == 0x0D || c.val == 0x20 || c.val == 0xA0 || c.val == 0x1680 ||
  (0x2000 ≤ c.val && c.val ≤ 0x200A) || c.val == 0x2028 || c.val == 0x2029 ||
  c.val == 0x202F || c.val == 0x205F || c.val == 0x3000 || c.val == 0xFEFF

/-- The single line-break character matched by `\n` in the regexes. -/
def isNL (c : Char) : Bool := c == '\n'

/-- Embeds `.replace(/^\s+|\s+$/g, '')` (and `String.prototype.trim()`):
strip leading and trailing `\s` runs. -/
def jsTrim (l : List Char) : List Char :=
  ((l.dropWhile isWS).reverse.dropWhile isWS).reverse

/-- Flush a pending character run (held in reverse order): a run of length
at least `k` is replaced by `rep`, a shorter run is kept verbatim. -/
def flushRun (k : Nat) (rep : List Char) (run : List Char) : List Char :=
  if k ≤ run.length then rep else run.reverse

/-- Worker for `collapseRuns`: `run` is the current pending run of
`p`-characters, in reverse order. -/
def collapseGo (p : Char → Bool) (k : Nat) (rep : List Char) :
    List Char → List Char → List Char
  | run, [] => flushRun k rep run
  | run, c :: rest =>
    if p c then collapseGo p k rep (c :: run) rest
    else flushRun k rep run ++ c :: collapseGo p k rep [] rest

/-- Embeds a global greedy replacement of runs: every maximal run of
characters satisfying `p` whose length is at least `k` is replaced by
`rep`; shorter runs are kept.  This is the behaviour of
`.replace(/X{k,}/g, rep)` for a character class `X` (the greedy quantifier
always consumes the maximal run). -/
def collapseRuns (p : Char → Bool) (k : Nat) (rep : List Char)
    (l : List Char) : List Char :=
  collapseGo p k rep [] l

/-- `TextProcessor.cleanContent` (part_000 lines 111-116):
`content.replace(/^\s+|\s+$/g, '').replace(/\n{3,}/g, '\n\n').replace(/\s{2,}/g, ' ')`.
Note the order: trim first, then collapse 3-or-more line breaks to two,
then collapse every run of 2-or-more `\s` characters (line breaks
included) to a single space. -/
def cleanContent (l : List Char) : List Char :=
  collapseRuns isWS 2 [' '] (collapseRuns isNL 3 ['\n', '\n'] (jsTrim l))

example : cleanContent "a\n\nb".data = "a b".data := by decide
example : cleanContent "  x   y  ".data = "x y".data := by decide
example : cleanContent "a\n\n\n\nb".data = "a b".data := by decide
example : cleanContent "body1\nbody1b".data = "body1\nbody1b".data := by decide

/-! ## Chapter segmentation (part_000, `TextProcessor.extractChapters`) -/

/-- `content.split('\n')`: split on every line-feed; an empty input gives
one empty line, a trailing line-feed gives a trailing empty line. -/
def splitNL : List Char → List (List Char)
  | [] => [[]]
  | c :: rest =>
    if c = '\n' then [] :: splitNL rest
    else
      match splitNL rest with
      | [] => [[c]]
      | s :: ss => (c :: s) :: ss

/-- The numeral class of `CONFIG.CHAPTER_REGEX`:
`[零一二三四五六七八九十百千万\d]` (the fixed Chinese numeral glyphs plus
ASCII digits — `\d` is `[0-9]`). -/
def isChapterNumeral (c : Char) : Bool :=
  c == '零' || c == '一' || c == '二' || c == '三' || c == '四' ||
  c == '五' || c == '六' || c == '七' || c == '八' || c == '九' ||
  c == '十' || c == '百' || c == '千' || c == '万' ||
  ('0' ≤ c && c ≤ '9')

/-- `CONFIG.CHAPTER_REGEX.test(line)` for
`/^第[零一二三四五六七八九十百千万\d]+章/` (part_000 line 14): anchored at
the start of the line (no trimming), `第`, one or more numeral-class
characters, then `章`.  The backtracking search over the length of the
`+`-run is embedded as a search over all split points. -/
def chapterRegexTest (l : List Char) : Bool :=
  match l with
  | [] => false
  | c :: rest =>
    c == '第' &&
      (List.range rest.length).any fun k =>
        (rest.take (k + 1)).all isChapterNumeral &&
          decide ((rest.drop (k + 1)).head? = some '章')

example : chapterRegexTest "第1章 Title A".data = true := by decide
example : chapterRegexTest "第十二章".data = true := by decide
example : chapterRegexTest " 第1章 A".data = false := by decide
example : chapterRegexTest "第章".data = false := by decide
example : chapterRegexTest "preamble".data = false := by decide

/-- A chapter record `{ title, content }`. -/
structure Chapter where
  title : List Char
  content : List Char
deriving DecidableEq, Repr

/-- A chapter whose body lines are still being accumulated
(the `currentChapter` variable: trimmed title plus the pending list of
content lines). -/
structure OpenChapter where
  title : List Char
  lines : List (List Char)
deriving DecidableEq, Repr

/-- Closing `currentChapter`: join the accumulated lines with `'\n'` and
normalize with `cleanContent` (part_000 lines 91 and 104). -/
def closeChapter (c : OpenChapter) : Chapter :=
  ⟨c.title, cleanContent (List.intercalate ['\n'] c.lines)⟩

/-- The loop body of `extractChapters`: fold over the lines carrying the
optional open chapter. -/
def extractLoop : List (List Char) → Option OpenChapter → List Chapter
  | [], none => []
  | [], some cur => [closeChapter cur]
  | line :: rest, cur =>
    if chapterRegexTest line then
      (match cur with
        | some c => [closeChapter c]
        | none => []) ++ extractLoop rest (some ⟨jsTrim line, []⟩)
    else
      match cur with
      | some c => extractLoop rest (some ⟨c.title, c.lines ++ [line]⟩)
      | none => extractLoop rest none

/-- `TextProcessor.extractChapters` (part_000 lines 83-109): split the
content on `'\n'`, open a chapter at every line matching the chapter
regex (title is the trimmed line), accumulate non-heading lines into the
open chapter, discard lines seen before the first heading, and close the
final open chapter at end of input. -/
def extractChapters (content : List Char) : List Chapter :=
  extractLoop (splitNL content) none

example :
    extractChapters "preamble\n第1章 Title A\nbody1\nbody1b\n第2章 Title B\nbody2".data =
      [⟨"第1章 Title A".data, "body1\nbody1b".data⟩,
       ⟨"第2章 Title B".data, "body2".data⟩] := by decide

example : extractChapters "no headings here".data = [] := by decide

/-! ## Encoding resolution (part_000, `TextProcessor.detectEncoding`) -/

/-- `CONFIG.ENCODINGS` (part_000 line 13). -/
def ENCODINGS : List String := ["utf8", "gb18030"]

/-- `TextProcessor.containsMalformedText(text, encoding)` (part_000 lines
76-81): for `'utf8'` the text is malformed when it contains the
replacement glyph (`/�/`) or contains a character outside 7-bit ASCII
(`/[^\x00-\x7F]/`) while containing no character of the CJK block
(`/[一-龯]/`, U+4E00..U+9FAF); for every other encoding the function
returns `false` unconditionally. -/
def containsMalformedText (text : List Char) (encoding : String) : Bool :=
  if encoding = "utf8" then
    text.any (fun c => c == '�') ||
      (text.any (fun c => 0x7F < c.val) &&
        !(text.any (fun c => '一' ≤ c && c ≤ '龯')))
  else false

/-- `TextProcessor.detectEncoding(buffer)` (part_000 lines 62-74): try the
candidate encodings in order; a candidate whose decode throws
(`decode enc buffer = none`) is skipped, a candidate whose decoded text is
judged malformed is skipped, the first surviving candidate is returned
with its label, and the final `throw` is `none`.  `iconv.decode` is an
external library, modelled as the `decode` parameter. -/
def detectEncoding (decode : String → List Nat → Option (List Char))
    (buffer : List Nat) : Option (String × List Char) :=
  ENCODINGS.findSome? fun enc =>
    match decode enc buffer with
    | none => none
    | some decoded =>
      if containsMalformedText decoded enc then none else some (enc, decoded)

/-- The malformed-text predicate exactly as the spec's words state it
(encoding-independent): text containing the replacement glyph, or
containing a non-ASCII character while containing no CJK character.
Spec-side definition, to be compared with `containsMalformedText`. -/
def specMalformedPredicate (text : List Char) : Bool :=
  text.any (fun c => c == '�') ||
    (text.any (fun c => 0x7F < c.val) &&
      !(text.any (fun c => '一' ≤ c && c ≤ '龯')))

/-! ## Compressed persistence (part_000, `CompressionManager`) -/

/-- UTF-8 byte length of one scalar value, as counted by
`Buffer.byteLength(str, 'utf8')`. -/
def utf8Len (c : Char) : Nat :=
  if c.val ≤ 0x7F then 1
  else if c.val ≤ 0x7FF then 2
  else if c.val ≤ 0xFFFF then 3
  else 4

/-- `Buffer.byteLength(jsonStr, 'utf8')`. -/
def utf8ByteLength (l : List Char) : Nat := (l.map utf8Len).sum

/-- The record literal `{ originalSize, compressedSize }` returned by
`CompressionManager.saveAsZip` (part_000 line 49). -/
structure WriteMetrics where
  originalSize : Nat
  compressedSize : Nat
deriving DecidableEq, Repr

/-- Hexadecimal digit character for a value below 16, lowercase, as
emitted by `JSON.stringify`'s `\u00xx` escapes. -/
def hexDigit (n : Nat) : Char :=
  if n < 10 then Char.ofNat (48 + n) else Char.ofNat (87 + n)

/-- `JSON.stringify`'s escaping of one string character (ECMA-262
QuoteJSONString): the two-character escapes for `"` `\` and the control
shorthands, `\u00xx` for the remaining control characters, and the
character itself otherwise. -/
def escapeChar (c : Char) : List Char :=
  if c = '"' then ['\\', '"']
  else if c = '\\' then ['\\', '\\']
  else if c = '\x08' then ['\\', 'b']
  else if c = '\x0c' then ['\\', 'f']
  else if c = '\n' then ['\\', 'n']
  else if c = '\r' then ['\\', 'r']
  else if c = '\t' then ['\\', 't']
  else if c.toNat < 0x20 then
    ['\\', 'u', '0', '0', hexDigit (c.toNat / 16), hexDigit (c.toNat % 16)]
  else [c]

/-- `JSON.stringify` of a string value. -/
def serializeString (s : List Char) : List Char :=
  '"' :: s.flatMap escapeChar ++ ['"']

/-- `JSON.stringify` of one chapter object (object keys in insertion
order: `title`, then `content`). -/
def serializeChapter (ch : Chapter) : List Char :=
  "\x7b\"title\":".data ++ serializeString ch.title ++
    ",\"content\":".data ++ serializeString ch.content ++ ['}']

/-- `JSON.stringify({ chapters })` (part_000 line 21 with line 155): the
single-key wrapper object around the chapter array. -/
def serializeColl (chapters : List Chapter) : List Char :=
  "\x7b\"chapters\":[".data ++
    (List.intercalate [','] (chapters.map serializeChapter)) ++ "]\x7d".data

/-- Value of one hexadecimal digit character. -/
def hexVal (c : Char) : Option Nat :=
  if '0' ≤ c ∧ c ≤ '9' then some (c.toNat - 48)
  else if 'a' ≤ c ∧ c ≤ 'f' then some (c.toNat - 87)
  else if 'A' ≤ c ∧ c ≤ 'F' then some (c.toNat - 55)
  else none

/-- Worker for `parseStringBody`, fuel-bounded (every step consumes at
least one character, so a fuel of the input length suffices). -/
def parseStringBodyGo : Nat → List Char → Option (List Char × List Char)
  | 0, _ => none
  | _ + 1, [] => none
  | fuel + 1, c :: rest =>
    if c = '"' then some ([], rest)
    else if c = '\\' then
      match rest with
      | [] => none
      | e :: r =>
        if e = '"' then (parseStringBodyGo fuel r).map fun p => ('"' :: p.1, p.2)
        else if e = '\\' then (parseStringBodyGo fuel r).map fun p => ('\\' :: p.1, p.2)
        else if e = '/' then (parseStringBodyGo fuel r).map fun p => ('/' :: p.1, p.2)
        else if e = 'b' then (parseStringBodyGo fuel r).map fun p => ('\x08' :: p.1, p.2)
        else if e = 'f' then (parseStringBodyGo fuel r).map fun p => ('\x0c' :: p.1, p.2)
        else if e = 'n' then (parseStringBodyGo fuel r).map fun p => ('\n' :: p.1, p.2)
        else if e = 'r' then (parseStringBodyGo fuel r).map fun p => ('\r' :: p.1, p.2)
        else if e = 't' then (parseStringBodyGo fuel r).map fun p => ('\t' :: p.1, p.2)
        else if e = 'u' then
          match r with
          | h1 :: h2 :: h3 :: h4 :: r' =>
            match hexVal h1, hexVal h2, hexVal h3, hexVal h4 with
            | some a, some b, some cc, some d =>
              let n := ((a * 16 + b) * 16 + cc) * 16 + d
              if n < 0xD800 ∨ (0xE000 ≤ n ∧ n < 0x110000) then
                (parseStringBodyGo fuel r').map fun p => (Char.ofNat n :: p.1, p.2)
              else none
            | _, _, _, _ => none
          | _ => none
        else none
    else if c.toNat < 0x20 then none
    else (parseStringBodyGo fuel rest).map fun p => (c :: p.1, p.2)

/-- JSON string-body parsing as performed by `JSON.parse` after the
opening quote: literal characters up to the closing quote, with the
standard escapes.  Raw control characters are rejected; a `\uXXXX` escape
is accepted when it denotes a Unicode scalar value (surrogate halves,
which `JSON.stringify` never emits for the scalar strings modelled here,
are rejected). -/
def parseStringBody (l : List Char) : Option (List Char × List Char) :=
  parseStringBodyGo l.length l

/-- Consume an exact literal token. -/
def parseExact (pat l : List Char) : Option (List Char) :=
  if pat.isPrefixOf l then some (l.drop pat.length) else none

/-- Parse one chapter object of the artifact schema. -/
def parseChapter (l : List Char) : Option (Chapter × List Char) := do
  let l1 ← parseExact "\x7b\"title\":\"".data l
  let (t, l2) ← parseStringBody l1
  let l3 ← parseExact ",\"content\":\"".data l2
  let (ct, l4) ← parseStringBody l3
  let l5 ← parseExact "\x7d".data l4
  some (⟨t, ct⟩, l5)

/-- Parse a non-empty comma-separated chapter sequence up to the closing
`]`.  `fuel` bounds the recursion; every chapter consumes at least one
character, so a fuel of the input length suffices. -/
def parseChaptersGo : Nat → List Char → Option (List Chapter × List Char)
  | 0, _ => none
  | fuel + 1, l => do
    let (ch, l1) ← parseChapter l
    match l1 with
    | ',' :: l2 => (parseChaptersGo fuel l2).map fun p => (ch :: p.1, p.2)
    | ']' :: l2 => some ([ch], l2)
    | _ => none

/-- `JSON.parse` restricted to the artifact schema
`{"chapters":[{"title":...,"content":...},...]}` (exactly the texts
`JSON.stringify` produces for a chapter collection; `JSON.stringify`
emits no insignificant whitespace). -/
def parseColl (l : List Char) : Option (List Chapter) := do
  let l1 ← parseExact "\x7b\"chapters\":[".data l
  if l1.head? = some ']' then (if l1.drop 1 = ['}'] then some [] else none)
  else do
    let (chs, l3) ← parseChaptersGo l1.length l1
    if l3 = ['}'] then some chs else none

example : parseColl (serializeColl []) = some [] := by decide
example :
    parseColl (serializeColl [⟨"a\"b".data, "c\nd\x01".data⟩, ⟨"第1章".data, "x".data⟩]) =
      some [⟨"a\"b".data, "c\nd\x01".data⟩, ⟨"第1章".data, "x".data⟩] := by decide

/-- `CompressionManager.saveAsZip` (part_000 lines 20-50), content of the
written artifact.  Modelled from the spec: the JSZip container holds the
single entry `data.json` whose decompressed bytes are exactly
`JSON.stringify(data)`; DEFLATE compression is an external library and is
lossless, so the artifact is modelled by the JSON text it stores. -/
def saveAsZipArtifact (chapters : List Chapter) : List Char :=
  serializeColl chapters

/-- `CompressionManager.readZip` (part_000 lines 52-57): load the single
`data.json` entry and `JSON.parse` it.  Modelled from the spec: the
container yields back the stored JSON text (lossless compression);
`JSON.parse` failure is `none`. -/
def readZip (artifact : List Char) : Option (List Chapter) :=
  parseColl artifact

/-- The metrics computation of `CompressionManager.saveAsZip` (part_000
lines 37-49): `originalSize` is the UTF-8 byte length of the serialized
JSON, `compressedSize` is the length of the generated zip buffer, and the
function returns `{ originalSize, compressedSize }`.  The DEFLATE output
length is the external `deflateLen` parameter and the wall-clock timer
(`process.hrtime`) is the external `elapsedMs` parameter; the ratio and
`elapsedMs` only feed the `console.log` line (lines 42-47), not the
return value. -/
def saveAsZipMetrics (deflateLen : List Char → Nat) (elapsedMs : Nat)
    (chapters : List Chapter) : WriteMetrics :=
  let jsonStr := serializeColl chapters
  let _ := elapsedMs
  { originalSize := utf8ByteLength jsonStr
    compressedSize := deflateLen jsonStr }

/-! ## Batch orchestration (part_000, `FileManager`) -/

/-- `CONFIG.MAX_CONCURRENT_FILES` (part_000 line 15). -/
def MAX_CONCURRENT_FILES : Nat := 5

/-- The per-file structured outcome: success (artifact written), warning
(`⚠ No chapters found`), or error (`✗ Error processing`). -/
inductive Outcome
  | success
  | warning
  | error
deriving DecidableEq, Repr

/-- Result of processing one file: its outcome and the artifact written
for it, if any. -/
structure FileResult where
  outcome : Outcome
  artifact : Option (List Char)
deriving DecidableEq, Repr

/-- `FileManager.processTextFile` (part_000 lines 141-159), from the point
where the input bytes are available: resolve the encoding (a `none` is
the thrown `EncodingError`, caught as the error outcome), extract the
chapters, return the warning outcome and write nothing when zero chapters
were found, otherwise write the artifact — a failing write (`writeOk =
false`, the external `fs.writeFile`) is caught as the error outcome. -/
def processTextFile (decode : String → List Nat → Option (List Char))
    (buffer : List Nat) (writeOk : Bool) : FileResult :=
  match detectEncoding decode buffer with
  | none => ⟨.error, none⟩
  | some (_, content) =>
    let chapters := extractChapters content
    if chapters.length = 0 then ⟨.warning, none⟩
    else if writeOk then ⟨.success, some (saveAsZipArtifact chapters)⟩
    else ⟨.error, none⟩

/-- Worker for `batches`: fuel-bounded structural recursion (each step
consumes at least one element, so a fuel of the list length suffices). -/
def batchesGo : Nat → List String → List (List String)
  | _, [] => []
  | 0, _ => []
  | fuel + 1, x :: xs =>
    (x :: xs.take (MAX_CONCURRENT_FILES - 1)) ::
      batchesGo fuel (xs.drop (MAX_CONCURRENT_FILES - 1))

/-- The batching loop of `FileManager.processAllTextFiles` (part_000 lines
173-176): `for (let i = 0; i < textFiles.length; i += MAX_CONCURRENT_FILES)
{ const batch = textFiles.slice(i, i + MAX_CONCURRENT_FILES); ... }` —
the file list partitioned into consecutive groups of at most
`MAX_CONCURRENT_FILES`. -/
def batches (files : List String) : List (List String) :=
  batchesGo files.length files

example : batches ["a", "b", "c", "d", "e", "f", "g"] =
    [["a", "b", "c", "d", "e"], ["f", "g"]] := by decide

/-- `FileManager.processAllTextFiles` (part_000 lines 161-177): every file
of every batch is processed by `processTextFile` (whose internal `catch`
means no file's failure ever rejects the `Promise.all`), one result per
file.  File reading (`fs.readFile`) is the external `bufOf` parameter and
write success is the external `writeOk` parameter. -/
def processAllTextFiles (decode : String → List Nat → Option (List Char))
    (bufOf : String → List Nat) (writeOk : String → Bool)
    (files : List String) : List FileResult :=
  (batches files).flatMap fun batch =>
    batch.map fun f => processTextFile decode (bufOf f) (writeOk f)

/-! ## Concurrency trace model for the batching loop -/

/-- Observable scheduling events of the per-file pipeline: a file enters
the pipeline (`start`) or settles (`settle`), in success or failure. -/
inductive FileEv
  | start (f : String)
  | settle (f : String)
deriving DecidableEq, Repr

/-- Number of `start` events in a trace. -/
def startCount (tr : List FileEv) : Nat :=
  tr.countP fun e => match e with | .start _ => true | .settle _ => false

/-- Number of `settle` events in a trace. -/
def settleCount (tr : List FileEv) : Nat :=
  tr.countP fun e => match e with | .start _ => false | .settle _ => true

/-- A trace of one `await Promise.all(batch.map(...))` group: every file
of the batch starts exactly once and settles exactly once within the
group (the `await` does not return before all have settled, and no other
file runs during the group), events interleaving arbitrarily with settles
never preceding their starts (on every prefix — every prefix of a list is
a `take` — at most as many settles as starts have happened). -/
def IsBatchTrace (batch : List String) (tr : List FileEv) : Prop :=
  startCount tr = batch.length ∧ settleCount tr = batch.length ∧
    ∀ n, n ≤ tr.length → settleCount (tr.take n) ≤ startCount (tr.take n)

/-- Files mid-pipeline after a prefix of the run: started but not yet
settled. -/
def inFlight (p : List FileEv) : Nat := startCount p - settleCount p

/-! ## Extended punctuation-remapping normalizer (part_001, `cleanText`) -/

/-- `.replace(/\r\n/g, '\n')`. -/
def replaceCrLf : List Char → List Char
  | [] => []
  | '\r' :: '\n' :: rest => '\n' :: replaceCrLf rest
  | c :: rest => c :: replaceCrLf rest

/-- `.replace(/\r/g, '\n')`. -/
def replaceCr (l : List Char) : List Char :=
  l.map fun c => if c = '\r' then '\n' else c

/-- The `PUNCTUATION_MAP` table of part_001 lines 22-32 (the duplicate
keys U+FFFD and U+FEFF each appear twice with the same value). -/
def PUNCTUATION_MAP (c : Char) : Option (List Char) :=
  if c = '，' then some [','] else if c = '。' then some ['.']
  else if c = '；' then some [';'] else if c = '：' then some [':']
  else if c = '？' then some ['?'] else if c = '！' then some ['!']
  else if c = '“' then some ['"'] else if c = '”' then some ['"']
  else if c = '‘' then some ['\''] else if c = '’' then some ['\'']
  else if c = '（' then some ['('] else if c = '）' then some [')']
  else if c = '【' then some ['['] else if c = '】' then some [']']
  else if c = '、' then some [','] else if c = '《' then some ['"']
  else if c = '》' then some ['"'] else if c = '…' then some ['.', '.', '.']
  else if c = '—' then some ['-'] else if c = '～' then some ['~']
  else if c = '\u00A0' then some [' '] else if c = '\u200B' then some [' ']
  else if c = '\u3000' then some [' '] else if c = '\uFEFF' then some []
  else if c = '\uFFFD' then some [] else if c = '\uFFFF' then some []
  else none

/-- `.replace(new RegExp(`[keys]`, 'g'), match => PUNCTUATION_MAP[match])`:
each mapped character is replaced by its table entry. -/
def applyPunctMap (l : List Char) : List Char :=
  l.flatMap fun c => (PUNCTUATION_MAP c).getD [c]

/-- `.replace(/,，/g, ',')`. -/
def fixCommaPair : List Char → List Char
  | [] => []
  | ',' :: '，' :: rest => ',' :: fixCommaPair rest
  | c :: rest => c :: fixCommaPair rest

/-- Terminal-punctuation class `[.,!?;:]` of part_001 lines 53-54. -/
def isTermPunct (c : Char) : Bool :=
  c == '.' || c == ',' || c == '!' || c == '?' || c == ';' || c == ':'

/-- Worker for `spaceBeforePunct`, carrying the pending whitespace run in
reverse order. -/
def sbpGo : List Char → List Char → List Char
  | run, [] => run.reverse
  | run, c :: rest =>
    if isWS c then sbpGo (c :: run) rest
    else if isTermPunct c ∧ run ≠ [] then c :: sbpGo [] rest
    else run.reverse ++ c :: sbpGo [] rest

/-- `.replace(/\s+([.,!?;:])/g, '$1')`: a whitespace run immediately
followed by terminal punctuation is dropped (the punctuation class
contains no whitespace, so the greedy `\s+` always matches the maximal
run). -/
def spaceBeforePunct (l : List Char) : List Char := sbpGo [] l

/-- `.replace(/([.,!?;:])([^\s"])/g, '$1 $2')`: insert one space after
terminal punctuation followed by a character that is neither whitespace
nor a double quote; the scan resumes after the two matched characters. -/
def spaceAfterPunct : List Char → List Char
  | [] => []
  | [c] => [c]
  | c :: d :: rest =>
    if isTermPunct c ∧ ¬(isWS d || d == '"') then
      c :: ' ' :: d :: spaceAfterPunct rest
    else c :: spaceAfterPunct (d :: rest)

/-- JavaScript regex `.` (no `s` flag): any character except a line
terminator. -/
def isDotClass (c : Char) : Bool :=
  !(c == '\n' || c == '\r' || c.val == 0x2028 || c.val == 0x2029)

/-- Length of the leading whitespace run. -/
def wsRunLen (l : List Char) : Nat := (l.takeWhile isWS).length

/-- Backtracking search for `(["'])\s+(.+?)\s+\1` after the opening quote
`q`: the first `\s+` is greedy (longest first), `(.+?)` is lazy (shortest
first), the second `\s+` is greedy, and the backreference must repeat
`q`.  Returns the lengths consumed by the three groups of the match a
backtracking engine finds, or `none`. -/
def quoteSearch (q : Char) (l : List Char) : Option (Nat × Nat × Nat) :=
  ((List.range (wsRunLen l)).map fun i => wsRunLen l - i).findSome? fun n1 =>
    let l1 := l.drop n1
    ((List.range l1.length).map fun i => i + 1).findSome? fun n2 =>
      if (l1.take n2).all isDotClass then
        let l2 := l1.drop n2
        ((List.range (wsRunLen l2)).map fun i => wsRunLen l2 - i).findSome? fun n3 =>
          if (l2.drop n3).head? = some q then some (n1, n2, n3) else none
      else none

/-- Worker for `quoteFix`, fuel-bounded (every step consumes at least one
character, so a fuel of the input length suffices). -/
def quoteFixGo : Nat → List Char → List Char
  | 0, l => l
  | _ + 1, [] => []
  | fuel + 1, c :: rest =>
    if c = '"' ∨ c = '\'' then
      match quoteSearch c rest with
      | some (n1, n2, n3) =>
        c :: ((rest.drop n1).take n2 ++ c :: quoteFixGo fuel (rest.drop (n1 + n2 + n3 + 1)))
      | none => c :: quoteFixGo fuel rest
    else c :: quoteFixGo fuel rest

/-- `.replace(/(["'])\s+(.+?)\s+\1/g, '$1$2$1')` (part_001 line 55): drop
the whitespace immediately inside a pair of matching quotes. -/
def quoteFix (l : List Char) : List Char := quoteFixGo l.length l

/-- `cleanText` (part_001 lines 41-60): normalize line endings, remap the
punctuation table, then apply the pattern fixes in source order and
trim. -/
def cleanText (l : List Char) : List Char :=
  jsTrim (collapseRuns isNL 3 ['\n', '\n']
    (quoteFix (spaceAfterPunct (spaceBeforePunct
      (collapseRuns (fun c => c == '.') 3 ['.', '.', '.']
        (fixCommaPair (applyPunctMap (replaceCr (replaceCrLf l)))))))))

example : cleanText "a，b。\n\n\n\nc".data = "a, b.\n\nc".data := by decide
example : cleanText "\" a \" b \"".data = "\"a\" b \"".data := by decide
example : cleanText "\"a\" b \"".data = "\"a\"b\"".data := by decide

/-! ## Claim C2: segmentation boundary on the two-chapter example -/

/-- C2: on the input
`"preamble\n第1章 Title A\nbody1\nbody1b\n第2章 Title B\nbody2"`,
`extractChapters` returns exactly two chapters, the first titled
`第1章 Title A` with content `body1\nbody1b`, the second titled
`第2章 Title B` with content `body2`, and the preamble line occurs in no
title and no content. -/
theorem spec_C2_segmentation_boundary :
    extractChapters
        "preamble\n第1章 Title A\nbody1\nbody1b\n第2章 Title B\nbody2".data =
      [⟨"第1章 Title A".data, "body1\nbody1b".data⟩,
       ⟨"第2章 Title B".data, "body2".data⟩] ∧
    ∀ ch ∈ extractChapters
        "preamble\n第1章 Title A\nbody1\nbody1b\n第2章 Title B\nbody2".data,
      ¬ "preamble".data <:+: ch.title ∧ ¬ "preamble".data <:+: ch.content := by
  refine ⟨by decide, ?_⟩
  decide

/-! ## Claim C10: segmenter invariant -/

/-- The titles emitted by the segmentation loop: the title of the open
chapter, if any, followed by the trimmed text of every line matching the
chapter regex, in order. -/
theorem extractLoop_titles (lines : List (List Char)) :
    ∀ cur : Option OpenChapter,
      (extractLoop lines cur).map Chapter.title =
        (match cur with
          | some c => [c.title]
          | none => []) ++ (lines.filter chapterRegexTest).map jsTrim := by
  induction lines with
  | nil => intro cur; cases cur <;> simp [extractLoop, closeChapter]
  | cons line rest ih =>
    intro cur
    by_cases h : chapterRegexTest line
    · cases cur <;> simp [extractLoop, h, ih, closeChapter, List.filter_cons]
    · cases cur <;>
        simp [extractLoop, h, ih, closeChapter, List.filter_cons,
          Bool.not_eq_true]

/-- C10: the number of chapters returned by `extractChapters` equals the
number of input lines matching the heading regex, each chapter's title is
the trimmed text of the corresponding matching line in document order,
and when no line matches the result is the empty collection. -/
theorem spec_C10_segmenter_invariant (content : List Char) :
    (extractChapters content).map Chapter.title =
      ((splitNL content).filter chapterRegexTest).map jsTrim ∧
    (extractChapters content).length =
      ((splitNL content).filter chapterRegexTest).length ∧
    ((splitNL content).filter chapterRegexTest = [] →
      extractChapters content = []) := by
  have h := extractLoop_titles (splitNL content) none
  simp only [extractChapters] at *
  refine ⟨by simpa using h, ?_, ?_⟩
  · have := congrArg List.length h
    simpa using this
  · intro hempty
    have := congrArg List.length h
    simp [hempty] at this
    exact this

/-! ## Claim C5: heading predicate -/

/-- The heading grammar as the spec states it for the text the predicate
is applied to: the literal `第`, one or more numeral-class characters,
then `章`, optionally followed by a title fragment. -/
def HeadingGrammar (l : List Char) : Prop :=
  ∃ run rest, l = '第' :: (run ++ '章' :: rest) ∧ run ≠ [] ∧
    ∀ c ∈ run, isChapterNumeral c = true

/-- C5 counterexample: the line `" 第1章 A"` (a heading preceded only by
leading whitespace) satisfies the heading grammar after trimming, yet the
code's heading test rejects the line, and segmenting an input consisting
of this line produces no chapter at all. -/
theorem spec_C5_counterexample :
    chapterRegexTest " 第1章 A".data = false ∧
    HeadingGrammar (jsTrim " 第1章 A".data) ∧
    extractChapters " 第1章 A\nbody".data = [] := by
  refine ⟨by decide, ⟨['1'], " A".data, by decide, by decide, by decide⟩, by decide⟩

/-- C5 amended: a line is recognised as a chapter heading iff the line
itself — with no whitespace trimming — begins with the literal `第`
followed by one or more numerals from the closed set (Arabic digits or
零一二三四五六七八九十百千万) followed by `章`; leading whitespace on the
line defeats recognition. -/
theorem spec_C5_amended (l : List Char) :
    chapterRegexTest l = true ↔ HeadingGrammar l := by
  cases l with
  | nil =>
    simp only [chapterRegexTest, HeadingGrammar]
    constructor
    · intro h; cases h
    · rintro ⟨run, rest, h, -, -⟩; cases h
  | cons c rest =>
    simp only [chapterRegexTest, Bool.and_eq_true, beq_iff_eq, List.any_eq_true,
      List.mem_range, decide_eq_true_eq, List.all_eq_true]
    constructor
    · rintro ⟨hc, k, hk, hall, hhead⟩
      subst hc
      obtain ⟨t, ht⟩ : ∃ t, rest.drop (k + 1) = '章' :: t := by
        cases hdrop : rest.drop (k + 1) with
        | nil => rw [hdrop] at hhead; cases hhead
        | cons x xs =>
          rw [hdrop] at hhead
          simp only [List.head?_cons, Option.some.injEq] at hhead
          exact ⟨xs, by rw [hhead]⟩
      refine ⟨rest.take (k + 1), t, ?_, ?_, hall⟩
      · have : rest = rest.take (k + 1) ++ rest.drop (k + 1) :=
          (List.take_append_drop (k + 1) rest).symm
        rw [ht] at this
        exact congrArg ('第' :: ·) this
      · have hlen : k + 1 ≤ rest.length := Nat.succ_le_of_lt hk
        intro habs
        have := congrArg List.length habs
        simp [List.length_take, Nat.min_eq_left hlen] at this
    · rintro ⟨run, t, heq, hne, hall⟩
      obtain ⟨hc, hrest⟩ : c = '第' ∧ rest = run ++ '章' :: t := by
        injection heq with h1 h2; exact ⟨h1, h2⟩
      refine ⟨hc, run.length - 1, ?_, ?_, ?_⟩
      · rw [hrest]
        simp only [List.length_append, List.length_cons]
        have : 1 ≤ run.length := List.length_pos.mpr hne
        omega
      · have hsucc : run.length - 1 + 1 = run.length := by
          have : 1 ≤ run.length := List.length_pos.mpr hne
          omega
        rw [hrest, hsucc, List.take_left]
        exact hall
      · have hsucc : run.length - 1 + 1 = run.length := by
          have : 1 ≤ run.length := List.length_pos.mpr hne
          omega
        rw [hrest, hsucc, List.drop_left]
        rfl

/-! ## Claim C4: encoding resolution -/

/-- C4 counterexample: with a decoder under which both candidates decode
the buffer to the single replacement glyph `�` — text that fails the
spec's malformed-text predicate — the resolver does not fail: it returns
the gb18030 candidate together with that malformed text, because the code
evaluates the malformed-text predicate only for the utf8 candidate. -/
theorem spec_C4_counterexample :
    detectEncoding (fun _ _ => some ['�']) [0xFF] =
      some ("gb18030", ['�']) ∧
    specMalformedPredicate ['�'] = true := by
  constructor <;> decide

/-- C4 amended: the resolver tries utf8 then gb18030, but evaluates the
malformed-text predicate only on the utf8 candidate; the gb18030
candidate is accepted whenever its decode succeeds, so the resolver
returns the utf8 decode if it passes the predicate, otherwise the gb18030
decode whatever its content, and fails only when the surviving decodes
themselves throw. -/
theorem spec_C4_amended (decode : String → List Nat → Option (List Char))
    (buffer : List Nat) :
    (∀ t, containsMalformedText t "gb18030" = false) ∧
    detectEncoding decode buffer =
      (match decode "utf8" buffer with
        | some t =>
          if specMalformedPredicate t then
            (decode "gb18030" buffer).map (fun u => ("gb18030", u))
          else some ("utf8", t)
        | none => (decode "gb18030" buffer).map (fun u => ("gb18030", u))) := by
  have hgb : ∀ u, containsMalformedText u "gb18030" = false := by
    intro u; simp [containsMalformedText]
  refine ⟨hgb, ?_⟩
  simp only [detectEncoding, ENCODINGS]
  cases hu : decode "utf8" buffer with
  | none =>
    cases hg : decode "gb18030" buffer with
    | none => simp [List.findSome?, hu, hg]
    | some u => simp [List.findSome?, hu, hg, hgb]
  | some t =>
    have hmal : containsMalformedText t "utf8" = specMalformedPredicate t := rfl
    cases hp : specMalformedPredicate t with
    | false =>
      have hm : containsMalformedText t "utf8" = false := by rw [hmal, hp]
      simp [List.findSome?, hu, hm, hp]
    | true =>
      have hm : containsMalformedText t "utf8" = true := by rw [hmal, hp]
      cases hg : decode "gb18030" buffer with
      | none => simp [List.findSome?, hu, hg, hm, hp]
      | some u => simp [List.findSome?, hu, hg, hm, hp, hgb]

/-! ## Claim C8: write metrics -/

/-- C8 counterexample: two writes of the same collection whose elapsed
wall-clock times differ (0 ms and 999 ms) return identical values, so the
value returned by the write does not contain the elapsed time (nor, being
a two-field record of the two byte sizes, the ratio as a component). -/
theorem spec_C8_counterexample :
    saveAsZipMetrics (fun l => l.length) 0 [⟨"t".data, "c".data⟩] =
      saveAsZipMetrics (fun l => l.length) 999 [⟨"t".data, "c".data⟩] ∧
    (0 : Nat) ≠ 999 := by
  constructor <;> decide

/-- C8 amended: a successful write returns exactly the original
(pre-compression) UTF-8 byte length of the serialized JSON and the
compressed byte length, and nothing else: the returned value is
independent of the elapsed wall-clock time (the ratio and the elapsed
time are only logged). -/
theorem spec_C8_amended (deflateLen : List Char → Nat)
    (elapsedMs elapsedMs' : Nat) (chapters : List Chapter) :
    (saveAsZipMetrics deflateLen elapsedMs chapters).originalSize =
      utf8ByteLength (serializeColl chapters) ∧
    (saveAsZipMetrics deflateLen elapsedMs chapters).compressedSize =
      deflateLen (serializeColl chapters) ∧
    saveAsZipMetrics deflateLen elapsedMs chapters =
      saveAsZipMetrics deflateLen elapsedMs' chapters := by
  exact ⟨rfl, rfl, rfl⟩

/-! ## Claim C6: normalizer operations -/

theorem flushRun_two_length (run : List Char) :
    (flushRun 2 [' '] run).length ≤ 1 := by
  unfold flushRun
  split
  · simp
  · simp only [List.length_reverse]
    omega

theorem chain'_of_length_le_one {R : Char → Char → Prop} (l : List Char)
    (h : l.length ≤ 1) : List.Chain' R l := by
  match l with
  | [] => exact List.chain'_nil
  | [c] => exact List.chain'_singleton c
  | a :: b :: t => simp at h

/-- The whitespace-collapsing pass leaves no two adjacent whitespace
characters: every maximal run of length at least two becomes a single
space bordered by non-whitespace (or an end of the text). -/
theorem collapseGo_ws_chain (l : List Char) : ∀ run : List Char,
    List.Chain' (fun a b => ¬(isWS a = true ∧ isWS b = true))
      (collapseGo isWS 2 [' '] run l) := by
  induction l with
  | nil => intro run; exact chain'_of_length_le_one _ (flushRun_two_length run)
  | cons c rest ih =>
    intro run
    by_cases hc : isWS c = true
    · rw [collapseGo, if_pos hc]
      exact ih (c :: run)
    · rw [collapseGo, if_neg hc]
      have hcT : List.Chain'
          (fun a b => ¬(isWS a = true ∧ isWS b = true))
          (c :: collapseGo isWS 2 [' '] [] rest) := by
        rw [List.chain'_cons']
        exact ⟨fun y _ hand => hc hand.1, ih []⟩
      cases hF : flushRun 2 [' '] run with
      | nil => simpa using hcT
      | cons w ws =>
        have hws : ws = [] := by
          have := flushRun_two_length run
          rw [hF] at this
          simp only [List.length_cons] at this
          exact List.eq_nil_of_length_eq_zero (by omega)
        subst hws
        simp only [List.cons_append, List.nil_append]
        rw [List.chain'_cons]
        exact ⟨fun hand => hc hand.2, hcT⟩

/-- C6 counterexample: an interior run of exactly two line breaks is not
preserved by the normalizer: `cleanContent "a\n\nb"` is `"a b"`, not
`"a\n\nb"` — the whitespace-collapsing step includes line breaks. -/
theorem spec_C6_counterexample :
    cleanContent "a\n\nb".data = "a b".data ∧
    "a b".data ≠ "a\n\nb".data := by
  constructor <;> decide

/-- C6 amended: `cleanContent` applies, in order, (1) trim of the whole
text, (2) collapse of 3-or-more consecutive line breaks to exactly two,
(3) collapse of every run of 2-or-more whitespace characters — line
breaks included — to one space; there is no line-ending unification step.
Consequently the output never contains two adjacent whitespace
characters; in particular an interior double line break is collapsed to a
single space rather than preserved. -/
theorem spec_C6_amended (l : List Char) :
    List.Chain' (fun a b => ¬(isWS a = true ∧ isWS b = true))
      (cleanContent l) :=
  collapseGo_ws_chain _ []

/-! ## Claim C3: normalizer idempotence -/

theorem flushRun_nil (k : Nat) (rep : List Char) (hk : 0 < k) :
    flushRun k rep [] = [] := by
  unfold flushRun
  rw [if_neg (by simp; omega)]
  rfl

/-- On a text with no two adjacent whitespace characters, a run-collapsing
pass for a whitespace sub-class `p` with threshold at least two finds
only runs of length one and changes nothing. -/
theorem collapseGo_id_of_chain (p : Char → Bool)
    (hp : ∀ c, p c = true → isWS c = true) (k : Nat) (hk : 2 ≤ k)
    (rep : List Char) :
    ∀ n (l : List Char), l.length ≤ n →
      List.Chain' (fun a b => ¬(isWS a = true ∧ isWS b = true)) l →
      collapseGo p k rep [] l = l := by
  intro n
  induction n with
  | zero =>
    intro l hl _
    have hnil : l = [] := List.eq_nil_of_length_eq_zero (Nat.le_zero.mp hl)
    subst hnil
    simp only [collapseGo]
    exact flushRun_nil _ _ (by omega)
  | succ n ih =>
    intro l hl hch
    match l with
    | [] =>
      simp only [collapseGo]
      exact flushRun_nil _ _ (by omega)
    | [c] =>
      by_cases hc : p c = true
      · rw [collapseGo, if_pos hc, collapseGo]
        unfold flushRun
        rw [if_neg (by simp; omega)]
        rfl
      · rw [collapseGo, if_neg hc, collapseGo, flushRun_nil _ _ (by omega)]
        rfl
    | c :: d :: r =>
      rw [List.chain'_cons] at hch
      obtain ⟨hcd, hch'⟩ := hch
      simp only [List.length_cons] at hl
      by_cases hc : p c = true
      · have hwd : isWS d ≠ true := fun h => hcd ⟨hp c hc, h⟩
        have hpd : ¬ p d = true := fun h => hwd (hp d h)
        rw [collapseGo, if_pos hc, collapseGo, if_neg hpd]
        have hf : flushRun k rep [c] = [c] := by
          unfold flushRun
          rw [if_neg (by simp; omega)]
          rfl
        have hr : collapseGo p k rep [] r = r :=
          ih r (by omega) (List.chain'_cons'.mp hch').2
        rw [hf, hr]
        rfl
      · rw [collapseGo, if_neg hc, flushRun_nil _ _ (by omega),
          ih (d :: r) (by simp; omega) hch']
        rfl

/-- A run-collapsing pass keeps the last character when it is not in the
collapsed class. -/
theorem collapseGo_getLast? (p : Char → Bool) (k : Nat) (rep : List Char)
    (hk : 0 < k) :
    ∀ (l run : List Char) (x : Char), l.getLast? = some x → ¬ p x = true →
      (collapseGo p k rep run l).getLast? = some x := by
  intro l
  induction l with
  | nil => intro run x h _; simp at h
  | cons c t ih =>
    intro run x h hx
    cases t with
    | nil =>
      simp only [List.getLast?_singleton, Option.some.injEq] at h
      subst h
      rw [collapseGo, if_neg hx, collapseGo, flushRun_nil _ _ hk,
        List.getLast?_append]
      rfl
    | cons d r =>
      rw [List.getLast?_cons_cons] at h
      by_cases hc : p c = true
      · rw [collapseGo, if_pos hc]
        exact ih (c :: run) x h hx
      · rw [collapseGo, if_neg hc]
        have hT := ih [] x h hx
        have hTne : collapseGo p k rep [] (d :: r) ≠ [] := by
          intro habs
          rw [habs] at hT
          cases hT
        rw [List.getLast?_append]
        cases hE : collapseGo p k rep [] (d :: r) with
        | nil => exact absurd hE hTne
        | cons e s =>
          rw [hE] at hT
          rw [List.getLast?_cons_cons, hT]
          rfl

/-- A run-collapsing pass keeps the head character when the head is not
in the collapsed class. -/
theorem collapseRuns_head? (p : Char → Bool) (k : Nat) (rep : List Char)
    (hk : 0 < k) (l : List Char)
    (h : ∀ c, l.head? = some c → ¬ p c = true) :
    (collapseRuns p k rep l).head? = l.head? := by
  cases l with
  | nil =>
    simp only [collapseRuns, collapseGo]
    rw [flushRun_nil _ _ hk]
  | cons c rest =>
    rw [collapseRuns, collapseGo, if_neg (h c rfl), flushRun_nil _ _ hk]
    rfl

/-- A text whose first and last characters (when present) are
non-whitespace. -/
def NiceEnds (l : List Char) : Prop :=
  (∀ c, l.head? = some c → ¬ isWS c = true) ∧
    (∀ c, l.getLast? = some c → ¬ isWS c = true)

theorem head?_dropWhile_not (p : Char → Bool) :
    ∀ (l : List Char) (c : Char), (l.dropWhile p).head? = some c →
      ¬ p c = true := by
  intro l
  induction l with
  | nil => intro c h; simp [List.dropWhile] at h
  | cons a t ih =>
    intro c h
    by_cases ha : p a = true
    · rw [List.dropWhile_cons, if_pos ha] at h
      exact ih c h
    · rw [List.dropWhile_cons, if_neg ha] at h
      simp only [List.head?_cons, Option.some.injEq] at h
      subst h
      exact ha

theorem dropWhile_eq_self_of_head (p : Char → Bool) (l : List Char)
    (h : ∀ c, l.head? = some c → ¬ p c = true) : l.dropWhile p = l := by
  cases l with
  | nil => rfl
  | cons c t => rw [List.dropWhile_cons, if_neg (h c rfl)]

theorem jsTrim_nice (l : List Char) : NiceEnds (jsTrim l) := by
  constructor
  · intro c h
    rw [jsTrim, List.head?_reverse] at h
    have hsuf := List.dropWhile_suffix (l := (l.dropWhile isWS).reverse) isWS
    obtain ⟨pre, hpre⟩ := hsuf
    have : ((l.dropWhile isWS).reverse).getLast? = some c := by
      rw [← hpre, List.getLast?_append, h]
      rfl
    rw [List.getLast?_reverse] at this
    exact head?_dropWhile_not isWS _ _ this
  · intro c h
    rw [jsTrim, List.getLast?_reverse] at h
    exact head?_dropWhile_not isWS _ _ h

theorem jsTrim_fixed (l : List Char) (h : NiceEnds l) : jsTrim l = l := by
  rw [jsTrim, dropWhile_eq_self_of_head isWS l h.1,
    dropWhile_eq_self_of_head isWS l.reverse
      (by intro c hc; rw [List.head?_reverse] at hc; exact h.2 c hc),
    List.reverse_reverse]

theorem collapseRuns_nice (p : Char → Bool) (k : Nat) (rep : List Char)
    (hp : ∀ c, p c = true → isWS c = true) (hk : 0 < k) (l : List Char)
    (h : NiceEnds l) : NiceEnds (collapseRuns p k rep l) := by
  constructor
  · intro c hc
    rw [collapseRuns_head? p k rep hk l
      (fun c hc => fun habs => h.1 c hc (hp c habs))] at hc
    exact h.1 c hc
  · intro c hc
    cases l with
    | nil =>
      simp only [collapseRuns, collapseGo, flushRun_nil _ _ hk] at hc
      cases hc
    | cons a t =>
      cases hx : (a :: t).getLast? with
      | none => simp at hx
      | some x =>
        have hwx : ¬ isWS x = true := h.2 x hx
        have hpx : ¬ p x = true := fun habs => hwx (hp x habs)
        rw [collapseRuns, collapseGo_getLast? p k rep hk _ _ x hx hpx] at hc
        cases hc
        exact hwx

/-- C3 counterexample: the extended punctuation-remapping normalizer is
not idempotent.  On the input `" a " b "` the quote-respacing step
rewrites `" a "` to `"a"`, after which a second application matches the
quote of `"a"` against the final stray quote and rewrites again:
`cleanText` gives `"a" b "` and a second `cleanText` gives `"a"b"`. -/
theorem spec_C3_counterexample :
    cleanText "\" a \" b \"".data = "\"a\" b \"".data ∧
    cleanText (cleanText "\" a \" b \"".data) = "\"a\"b\"".data ∧
    cleanText (cleanText "\" a \" b \"".data) ≠
      cleanText "\" a \" b \"".data := by
  refine ⟨by decide, by decide, by decide⟩

/-- C3 amended: the basic normalizer `cleanContent` is idempotent —
`cleanContent (cleanContent s) = cleanContent s` for every string; the
extended punctuation-remapping variant `cleanText` is not idempotent. -/
theorem spec_C3_amended (l : List Char) :
    cleanContent (cleanContent l) = cleanContent l := by
  have hnl_ws : ∀ c, isNL c = true → isWS c = true := by
    intro c hc
    have : c = '\n' := by simpa [isNL] using hc
    subst this
    decide
  have h1 : NiceEnds (jsTrim l) := jsTrim_nice l
  have h2 : NiceEnds (collapseRuns isNL 3 ['\n', '\n'] (jsTrim l)) :=
    collapseRuns_nice _ _ _ hnl_ws (by omega) _ h1
  have h3 : NiceEnds (cleanContent l) := by
    rw [cleanContent]
    exact collapseRuns_nice _ _ _ (fun c hc => hc) (by omega) _ h2
  have hch : List.Chain' (fun a b => ¬(isWS a = true ∧ isWS b = true))
      (cleanContent l) := collapseGo_ws_chain _ []
  conv_lhs => rw [cleanContent]
  rw [jsTrim_fixed _ h3]
  rw [show collapseRuns isNL 3 ['\n', '\n'] (cleanContent l) = cleanContent l from
    collapseGo_id_of_chain isNL hnl_ws 3 (by omega) _ (cleanContent l).length _
      (Nat.le_refl _) hch]
  exact collapseGo_id_of_chain isWS (fun c hc => hc) 2 (by omega) _
    (cleanContent l).length _ (Nat.le_refl _) hch

/-! ## Claim C1: archive round-trip -/

theorem hexVal_hexDigit : ∀ m, m < 16 → hexVal (hexDigit m) = some m := by
  decide

theorem escapeChar_ne_nil (c : Char) : escapeChar c ≠ [] := by
  unfold escapeChar
  repeat' split
  all_goals simp

theorem length_le_flatMap_escape (s : List Char) :
    s.length ≤ (s.flatMap escapeChar).length := by
  induction s with
  | nil => simp
  | cons c s' ih =>
    rw [List.flatMap_cons, List.length_append, List.length_cons]
    have : 1 ≤ (escapeChar c).length :=
      List.length_pos.mpr (escapeChar_ne_nil c)
    omega

/-- Parsing back an escaped string body, with sufficient fuel, recovers
exactly the original characters and leaves the input after the closing
quote. -/
theorem parseStringBodyGo_roundtrip :
    ∀ (s : List Char) (fuel : Nat) (rest : List Char), s.length < fuel →
      parseStringBodyGo fuel (s.flatMap escapeChar ++ '"' :: rest) =
        some (s, rest) := by
  intro s
  induction s with
  | nil =>
    intro fuel rest h
    match fuel, h with
    | f + 1, _ => simp [parseStringBodyGo]
  | cons c s' ih =>
    intro fuel rest h
    match fuel, h with
    | f + 1, h =>
      have hf : s'.length < f := by
        simp only [List.length_cons] at h
        omega
      have IH := ih f rest hf
      have hsh : (c :: s').flatMap escapeChar ++ '"' :: rest =
          escapeChar c ++ (s'.flatMap escapeChar ++ '"' :: rest) := by
        simp [List.flatMap_cons, List.append_assoc]
      rw [hsh]
      by_cases h1 : c = '"'
      · subst h1; simp [escapeChar, parseStringBodyGo, IH]
      · by_cases h2 : c = '\\'
        · subst h2; simp [escapeChar, parseStringBodyGo, IH]
        · by_cases h3 : c = '\x08'
          · subst h3; simp [escapeChar, parseStringBodyGo, IH]
          · by_cases h4 : c = '\x0c'
            · subst h4; simp [escapeChar, parseStringBodyGo, IH]
            · by_cases h5 : c = '\n'
              · subst h5; simp [escapeChar, parseStringBodyGo, IH]
              · by_cases h6 : c = '\r'
                · subst h6; simp [escapeChar, parseStringBodyGo, IH]
                · by_cases h7 : c = '\t'
                  · subst h7; simp [escapeChar, parseStringBodyGo, IH]
                  · by_cases h8 : c.toNat < 0x20
                    · rw [escapeChar, if_neg h1, if_neg h2, if_neg h3, if_neg h4,
                        if_neg h5, if_neg h6, if_neg h7, if_pos h8]
                      have hda : hexVal (hexDigit (c.toNat / 16)) =
                          some (c.toNat / 16) := hexVal_hexDigit _ (by omega)
                      have hdb : hexVal (hexDigit (c.toNat % 16)) =
                          some (c.toNat % 16) := hexVal_hexDigit _ (by omega)
                      have h00 : hexVal '0' = some 0 := by decide
                      have hn : ((0 * 16 + 0) * 16 + c.toNat / 16) * 16 +
                          c.toNat % 16 = c.toNat := by omega
                      simp only [List.append_eq, List.cons_append,
                        List.nil_append, parseStringBodyGo, reduceIte, h00,
                        hda, hdb, hn]
                      rw [if_pos (Or.inl (by omega : c.toNat < 0xD800))]
                      rw [Char.ofNat_toNat, IH]
                      rfl
                    · rw [escapeChar, if_neg h1, if_neg h2, if_neg h3, if_neg h4,
                        if_neg h5, if_neg h6, if_neg h7, if_neg h8]
                      simp only [List.append_eq, List.cons_append,
                        List.nil_append, parseStringBodyGo, if_neg h1,
                        if_neg h2, if_neg h8, IH]
                      rfl

/-- Parsing back an escaped string body recovers exactly the original
characters and leaves the input after the closing quote. -/
theorem parseStringBody_roundtrip (s rest : List Char) :
    parseStringBody (s.flatMap escapeChar ++ '"' :: rest) = some (s, rest) := by
  rw [parseStringBody]
  apply parseStringBodyGo_roundtrip
  have := length_le_flatMap_escape s
  simp only [List.length_append, List.length_cons]
  omega

theorem parseExact_append (pat rest : List Char) :
    parseExact pat (pat ++ rest) = some rest := by
  rw [parseExact, if_pos, List.drop_left]
  rw [List.isPrefixOf_iff_prefix]
  exact List.prefix_append pat rest

/-- Parsing back one serialized chapter recovers it exactly. -/
theorem parseChapter_roundtrip (ch : Chapter) (rest : List Char) :
    parseChapter (serializeChapter ch ++ rest) = some (ch, rest) := by
  have hassoc : serializeChapter ch ++ rest =
      "\x7b\"title\":\"".data ++
        (ch.title.flatMap escapeChar ++ '"' ::
          (",\"content\":\"".data ++
            (ch.content.flatMap escapeChar ++ '"' :: ('}' :: rest)))) := by
    have e1 : "\x7b\"title\":\"".data = "\x7b\"title\":".data ++ ['"'] := by decide
    have e2 : ",\"content\":\"".data = ",\"content\":".data ++ ['"'] := by decide
    rw [serializeChapter, serializeString, serializeString, e1, e2]
    simp [List.append_assoc]
  have hbr : parseExact "\x7d".data ('}' :: rest) = some rest :=
    parseExact_append "\x7d".data rest
  rw [hassoc, parseChapter]
  simp only [parseExact_append, Option.bind_eq_bind, Option.some_bind,
    parseStringBody_roundtrip, hbr]

theorem intercalate_cons_cons (s x y : List Char) (t : List (List Char)) :
    List.intercalate s (x :: y :: t) = x ++ s ++ List.intercalate s (y :: t) := by
  simp [List.intercalate, List.intersperse]

theorem intercalate_singleton (s x : List Char) :
    List.intercalate s [x] = x := by
  simp [List.intercalate]

theorem serializeChapter_cons (ch : Chapter) :
    ∃ t, serializeChapter ch = '{' :: t := ⟨_, rfl⟩

/-- Parsing back a serialized non-empty chapter list, with any sufficient
fuel, recovers it exactly. -/
theorem parseChaptersGo_roundtrip :
    ∀ (chs : List Chapter) (fuel : Nat) (rest : List Char),
      chs ≠ [] → chs.length ≤ fuel →
      parseChaptersGo fuel
          (List.intercalate [','] (chs.map serializeChapter) ++ ']' :: rest) =
        some (chs, rest) := by
  intro chs
  induction chs with
  | nil => intro fuel rest h _; exact absurd rfl h
  | cons ch t ih =>
    intro fuel rest _ hfuel
    match fuel, hfuel with
    | fuel + 1, hf1 =>
      cases t with
      | nil =>
        rw [List.map_cons, List.map_nil, intercalate_singleton, parseChaptersGo]
        rw [parseChapter_roundtrip]
        rfl
      | cons ch' t' =>
        rw [List.map_cons, List.map_cons, intercalate_cons_cons,
          ← List.map_cons serializeChapter ch' t', List.append_assoc,
          List.append_assoc, parseChaptersGo]
        rw [parseChapter_roundtrip ch
          ([','] ++ (List.intercalate [',']
            (List.map serializeChapter (ch' :: t')) ++ ']' :: rest))]
        simp only [Option.bind_eq_bind, Option.some_bind, List.cons_append,
          List.nil_append]
        rw [ih fuel rest (by simp)
          (by simp only [List.length_cons] at hf1 ⊢; omega)]
        rfl

/-- Every serialized chapter is at least one character, so the length of
the serialized list bounds the chapter count. -/
theorem length_le_intercalate :
    ∀ chs : List Chapter, chs ≠ [] →
      chs.length ≤ (List.intercalate [','] (chs.map serializeChapter)).length := by
  intro chs
  induction chs with
  | nil => intro h; exact absurd rfl h
  | cons ch t ih =>
    intro _
    cases t with
    | nil =>
      rw [List.map_cons, List.map_nil, intercalate_singleton]
      obtain ⟨tl, htl⟩ := serializeChapter_cons ch
      rw [htl]
      simp
    | cons ch' t' =>
      rw [List.map_cons, List.map_cons, intercalate_cons_cons,
        ← List.map_cons serializeChapter ch' t']
      have h1 := ih (by simp)
      obtain ⟨tl, htl⟩ := serializeChapter_cons ch
      simp only [List.length_append, List.length_cons]
      simp only [List.length_cons] at h1 ⊢
      rw [htl]
      simp only [List.length_cons]
      omega

/-- C1: the archive round-trip law — reading back the artifact written
for any chapter collection yields exactly that collection: every title
and content string is recovered verbatim and the array order is
preserved. -/
theorem spec_C1_roundtrip (chapters : List Chapter) :
    readZip (saveAsZipArtifact chapters) = some chapters := by
  cases chapters with
  | nil => decide
  | cons ch t =>
    rw [readZip, saveAsZipArtifact, serializeColl]
    have hjoin : "\x7b\"chapters\":[".data ++
        (List.intercalate [','] ((ch :: t).map serializeChapter)) ++ "]\x7d".data =
        "\x7b\"chapters\":[".data ++
          ((List.intercalate [','] ((ch :: t).map serializeChapter)) ++
            ']' :: ['}']) := by
      simp only [List.append_assoc]
    rw [hjoin, parseColl, parseExact_append]
    simp only [Option.bind_eq_bind, Option.some_bind]
    obtain ⟨tl, htl⟩ := serializeChapter_cons ch
    obtain ⟨K, hK⟩ : ∃ K,
        List.intercalate [','] ((ch :: t).map serializeChapter) =
          serializeChapter ch ++ K := by
      cases t with
      | nil =>
        exact ⟨[], by rw [List.map_cons, List.map_nil, intercalate_singleton]; simp⟩
      | cons ch' t' =>
        refine ⟨[','] ++ List.intercalate [','] ((ch' :: t').map serializeChapter), ?_⟩
        rw [List.map_cons, List.map_cons, intercalate_cons_cons,
          ← List.map_cons serializeChapter ch' t']
        simp [List.append_assoc]
    have hhead : (List.intercalate [','] ((ch :: t).map serializeChapter) ++
        ']' :: ['}']).head? = some '{' := by
      rw [hK, htl]
      rfl
    rw [if_neg (by rw [hhead]; decide)]
    have hlen : (ch :: t).length ≤
        (List.intercalate [','] ((ch :: t).map serializeChapter) ++
          ']' :: ['}']).length := by
      have := length_le_intercalate (ch :: t) (by simp)
      simp only [List.length_append, List.length_cons] at this ⊢
      omega
    rw [parseChaptersGo_roundtrip (ch :: t) _ ['}'] (by simp) hlen]
    rfl

/-! ## Claim C7: zero-chapter outcome and per-file isolation -/

theorem batchesGo_join : ∀ (fuel : Nat) (l : List String),
    l.length ≤ fuel → (batchesGo fuel l).flatten = l := by
  intro fuel
  induction fuel with
  | zero =>
    intro l h
    have hnil : l = [] := List.eq_nil_of_length_eq_zero (Nat.le_zero.mp h)
    subst hnil
    rfl
  | succ n ih =>
    intro l h
    match l with
    | [] => rfl
    | x :: xs =>
      rw [batchesGo, List.flatten_cons,
        ih (xs.drop (MAX_CONCURRENT_FILES - 1))
          (by
            simp only [List.length_drop]
            simp only [List.length_cons] at h
            omega),
        List.cons_append, List.take_append_drop]

/-- The batch partition reassembles to the original file list. -/
theorem batches_join (l : List String) : (batches l).flatten = l :=
  batchesGo_join l.length l (Nat.le_refl _)

theorem batchesGo_batch_le : ∀ (fuel : Nat) (l : List String),
    ∀ b ∈ batchesGo fuel l, b.length ≤ MAX_CONCURRENT_FILES := by
  intro fuel
  induction fuel with
  | zero =>
    intro l b hb
    cases l <;> simp [batchesGo] at hb
  | succ n ih =>
    intro l b hb
    match l with
    | [] => simp [batchesGo] at hb
    | x :: xs =>
      rw [batchesGo] at hb
      rcases List.mem_cons.mp hb with rfl | hb'
      · simp only [List.length_cons, List.length_take]
        simp [MAX_CONCURRENT_FILES]
      · exact ih _ b hb'

/-- Every batch respects the configured maximum size. -/
theorem batches_batch_le (l : List String) :
    ∀ b ∈ batches l, b.length ≤ MAX_CONCURRENT_FILES :=
  batchesGo_batch_le l.length l

theorem flatMap_map_length (L : List (List String))
    (g : String → FileResult) :
    (L.flatMap fun b => b.map g).length = L.flatten.length := by
  induction L with
  | nil => rfl
  | cons b L' ih => simp [List.flatMap_cons, List.flatten_cons, ih]

/-- C7: (i) when encoding resolution succeeds but segmentation yields zero
chapters, the per-file outcome is the warning outcome and no artifact is
written; (ii) the per-file error outcome occurs exactly when encoding
resolution fails or the chapters are non-empty and the archive write
fails; (iii) the orchestrator produces one outcome per file — no file's
outcome aborts the processing of its siblings. -/
theorem spec_C7_zero_chapter_outcome
    (decode : String → List Nat → Option (List Char)) (buffer : List Nat)
    (writeOk : Bool) :
    ((∃ pr, detectEncoding decode buffer = some pr ∧
        extractChapters pr.2 = []) →
      processTextFile decode buffer writeOk = ⟨Outcome.warning, none⟩) ∧
    ((processTextFile decode buffer writeOk).outcome = Outcome.error ↔
      (detectEncoding decode buffer = none ∨
        ∃ pr, detectEncoding decode buffer = some pr ∧
          extractChapters pr.2 ≠ [] ∧ writeOk = false)) ∧
    (∀ (bufOf : String → List Nat) (wOf : String → Bool)
        (files : List String),
      (processAllTextFiles decode bufOf wOf files).length = files.length) := by
  refine ⟨?_, ?_, ?_⟩
  · rintro ⟨⟨enc, content⟩, hdet, hempty⟩
    simp [processTextFile, hdet, hempty]
  · cases hdet : detectEncoding decode buffer with
    | none => simp [processTextFile, hdet]
    | some pr =>
      obtain ⟨enc, content⟩ := pr
      by_cases hch : extractChapters content = []
      · simp [processTextFile, hdet, hch]
      · cases hw : writeOk
        · simp [processTextFile, hdet, hch, hw]
        · simp [processTextFile, hdet, hch, hw]
  · intro bufOf wOf files
    rw [processAllTextFiles, flatMap_map_length, batches_join]

/-- Witness for C7 at a concrete input: a decoder yielding the plain text
`"x"` (well-formed, no heading lines) produces zero chapters, and the
outcome is the warning with no artifact. -/
theorem spec_C7_witness :
    (∃ pr, detectEncoding (fun _ _ => some ['x']) [7] = some pr ∧
        extractChapters pr.2 = []) ∧
    processTextFile (fun _ _ => some ['x']) [7] true =
      ⟨Outcome.warning, none⟩ := by
  have h : ∃ pr, detectEncoding (fun _ _ => some ['x']) [7] = some pr ∧
      extractChapters pr.2 = [] := ⟨("utf8", ['x']), by decide, by decide⟩
  exact ⟨h, (spec_C7_zero_chapter_outcome (fun _ _ => some ['x']) [7] true).1 h⟩

/-! ## Claim C9: concurrency bound of the batching loop -/

theorem prefix_append_cases {α : Type} :
    ∀ (a p b : List α), p <+: a ++ b →
      p <+: a ∨ ∃ q, p = a ++ q ∧ q <+: b := by
  intro a
  induction a with
  | nil =>
    intro p b h
    exact Or.inr ⟨p, by simp, by simpa using h⟩
  | cons x a' ih =>
    intro p b h
    cases p with
    | nil => exact Or.inl (List.nil_prefix)
    | cons y p' =>
      rw [List.cons_append, List.cons_prefix_cons] at h
      obtain ⟨rfl, h'⟩ := h
      rcases ih p' b h' with h1 | ⟨q, rfl, hq⟩
      · exact Or.inl (List.cons_prefix_cons.mpr ⟨rfl, h1⟩)
      · exact Or.inr ⟨q, by simp, hq⟩

/-- The interleaved run of a list of batch traces never has more files
mid-pipeline than the largest batch: completed batch traces are balanced,
and within the current batch the number of started files is bounded by
the batch size. -/
theorem batch_traces_inflight :
    ∀ (bs : List (List String)) (trs : List (List FileEv)),
      List.Forall₂ IsBatchTrace bs trs →
      (∀ b ∈ bs, b.length ≤ MAX_CONCURRENT_FILES) →
      ∀ p, p <+: trs.flatten → inFlight p ≤ MAX_CONCURRENT_FILES := by
  intro bs trs h
  induction h with
  | nil =>
    intro _ p hp
    have hnil : p = [] := by simpa using hp
    subst hnil
    decide
  | @cons b₁ t₁ bs' trs' hbt htail ih =>
    intro hle p hp
    rw [List.flatten_cons] at hp
    rcases prefix_append_cases t₁ p trs'.flatten hp with h1 | ⟨q, rfl, hq⟩
    · have hs : startCount p ≤ startCount t₁ :=
        List.Sublist.countP_le _ h1.sublist
      have hb1 : startCount t₁ = b₁.length := hbt.1
      have hb : b₁.length ≤ MAX_CONCURRENT_FILES :=
        hle b₁ (List.mem_cons_self b₁ bs')
      rw [inFlight]
      omega
    · have hrec := ih (fun b hb => hle b (List.mem_cons_of_mem _ hb)) q hq
      rw [inFlight, startCount, settleCount, List.countP_append,
        List.countP_append] at *
      have hb1 : startCount t₁ = b₁.length := hbt.1
      have hb2 : settleCount t₁ = b₁.length := hbt.2.1
      rw [startCount] at hb1
      rw [settleCount] at hb2
      omega

/-- C9: the orchestrator partitions the files into consecutive batches of
at most `MAX_CONCURRENT_FILES = 5`, the partition reassembles to the
original file list, and along any run that executes the batches in
sequence — each batch an arbitrary interleaving of its files' start and
settle events, with a batch's `Promise.all` awaited before the next batch
begins — no prefix of the run ever has more than `MAX_CONCURRENT_FILES`
files mid-pipeline (started but not settled). -/
theorem spec_C9_concurrency_bound (files : List String)
    (traces : List (List FileEv))
    (h : List.Forall₂ IsBatchTrace (batches files) traces) :
    (∀ b ∈ batches files, b.length ≤ MAX_CONCURRENT_FILES) ∧
    (batches files).flatten = files ∧
    (∀ p, p <+: traces.flatten → inFlight p ≤ MAX_CONCURRENT_FILES) := by
  refine ⟨batches_batch_le files, batches_join files, ?_⟩
  exact batch_traces_inflight _ _ h (batches_batch_le files)

/-- A concrete two-batch run over six files (more files than the batch
size): batch one starts its five files and settles them, then batch two
runs its single file. -/
def c9TraceA : List FileEv :=
  [FileEv.start "a", FileEv.start "b", FileEv.start "c", FileEv.start "d",
   FileEv.start "e", FileEv.settle "c", FileEv.settle "a", FileEv.settle "b",
   FileEv.settle "e", FileEv.settle "d"]

/-- Second-batch trace of the concrete run. -/
def c9TraceB : List FileEv := [FileEv.start "f", FileEv.settle "f"]

/-- Witness for C9 at a concrete input: six files, the concrete two-batch
interleaving satisfies the batch-trace hypothesis, and no prefix of the
run has more than five files mid-pipeline. -/
theorem spec_C9_witness :
    List.Forall₂ IsBatchTrace (batches ["a", "b", "c", "d", "e", "f"])
      [c9TraceA, c9TraceB] ∧
    (∀ p, p <+: ([c9TraceA, c9TraceB] : List (List FileEv)).flatten →
      inFlight p ≤ MAX_CONCURRENT_FILES) := by
  have hb : batches ["a", "b", "c", "d", "e", "f"] =
      [["a", "b", "c", "d", "e"], ["f"]] := by decide
  have h1 : IsBatchTrace ["a", "b", "c", "d", "e"] c9TraceA := by
    refine ⟨by decide, by decide, ?_⟩
    decide
  have h2 : IsBatchTrace ["f"] c9TraceB := by
    refine ⟨by decide, by decide, ?_⟩
    decide
  have hf : List.Forall₂ IsBatchTrace (batches ["a", "b", "c", "d", "e", "f"])
      [c9TraceA, c9TraceB] := by
    rw [hb]
    exact List.Forall₂.cons h1 (List.Forall₂.cons h2 List.Forall₂.nil)
  exact ⟨hf, (spec_C9_concurrency_bound ["a", "b", "c", "d", "e", "f"]
    [c9TraceA, c9TraceB] hf).2.2⟩

end NovelsEnd
